import Mathlib

/-!
Verification development for TheLeague NFL boxscore pipeline
(`src/theleague/handlers/nfl_handler.py`, `src/theleague/utilities.py`,
`src/theleague/pydantic_models/nfl_model.py`).

The Python code is shallowly embedded: dataframes become lists of rows,
cells extracted with `extract_links="body"` become a tagged `Cell` type,
pandas/pydantic transformations become Lean functions on those lists.
Machine floats of the source are modelled as rationals (ℚ); no claim here
depends on rounding behaviour.
-/

/-! ## Shared string utilities

`splitOnChar c l` models the Python `str.split(sep)` for a one-character
separator `sep`: `"".split(sep) == [""]`, separators at the ends produce
empty components. -/

def splitOnChar (c : Char) : List Char → List (List Char)
  | [] => [[]]
  | a :: as =>
    match splitOnChar c as with
    | [] => [[]]
    | h :: t => if a = c then [] :: h :: t else (a :: h) :: t

theorem splitOnChar_ne_nil (c : Char) (l : List Char) : splitOnChar c l ≠ [] := by
  cases l with
  | nil => simp [splitOnChar]
  | cons a as =>
    simp only [splitOnChar]
    rcases h : splitOnChar c as with _ | ⟨h', t'⟩
    · simp
    · by_cases hac : a = c <;> simp [hac]

/-- Models Python `str.strip(ch)` for a single-character argument:
removes all leading and trailing occurrences of `ch`. -/
def pyStripChar (ch : Char) (s : String) : String :=
  ⟨((s.data.dropWhile (· == ch)).reverse.dropWhile (· == ch)).reverse⟩

/-- Models Python `str.strip()` with no argument: removes leading and
trailing whitespace. -/
def pyStrip (s : String) : String :=
  ⟨((s.data.dropWhile (·.isWhitespace)).reverse.dropWhile (·.isWhitespace)).reverse⟩

/-- Models Python `str.endswith(c)` for a one-character suffix `c`. -/
def pyEndsWithChar (c : Char) (s : String) : Bool :=
  s.data.getLast? == some c

/-! ## C1 — SeasonAssigner

Source: `src/theleague/utilities.py`, `calculate_nfl_season` (lines 11-18),
and the inline season assignment in
`NFLDailyStatsCollector._process_and_upload_data`
(`src/theleague/handlers/nfl_handler.py` lines 373-377). -/

/-- A calendar date as the Python `datetime` objects used by the source
(only the fields the season logic reads). -/
structure PyDate where
  year : Int
  month : Nat
  day : Nat
  deriving DecidableEq, Repr

/-- Return type of `calculate_nfl_season`: the Python function is annotated
`-> int` but one branch returns the `datetime` object itself, so the embedded
return type is a sum of the two shapes actually returned. -/
inductive SeasonResult where
  | intVal (n : Int)
  | dateVal (d : PyDate)
  deriving DecidableEq, Repr

/-- `utilities.calculate_nfl_season`:
`if date.month < 8: return date.year - 1 else: return date`. -/
def calculate_nfl_season (date : PyDate) : SeasonResult :=
  if date.month < 8 then .intVal (date.year - 1) else .dateVal date

/-- The inline season assignment of `_process_and_upload_data`:
`current_date.year if current_date.month > 7 else current_date.year - 1`. -/
def assignSeason (current_date : PyDate) : Int :=
  if current_date.month > 7 then current_date.year else current_date.year - 1

/-! ## C8 / C9 — SchemaValidator preprocessing

Source: `src/theleague/pydantic_models/nfl_model.py`,
`NFLBoxscore.parse_percentages` (lines 384-395) and
`NFLBoxscore.empty_string_to_none` (lines 397-409). -/

/-- A Python value as it appears in the `values` dict handed to the
pydantic `model_validator(mode="before")` hooks. -/
inductive PyVal where
  | str (s : String)
  | num (q : ℚ)
  | nan
  deriving DecidableEq, Repr

def digitsToNat (ds : List Char) : Nat :=
  ds.foldl (fun a c => a * 10 + (c.toNat - 48)) 0

/-- Models the Python builtin `float(...)` on its plain decimal-literal
inputs (optional sign, digits, optional single decimal point); other
accepted spellings (exponents, inf/nan) do not occur in the percentage
strings this validator sees.  `none` is the `ValueError` case. -/
def pyFloat? (s : String) : Option ℚ :=
  let t := pyStrip s
  let body : List Char :=
    match t.data with
    | '-' :: rest => rest
    | '+' :: rest => rest
    | l => l
  let sign : ℚ :=
    match t.data with
    | '-' :: _ => -1
    | _ => 1
  match splitOnChar '.' body with
  | [ip] =>
    if ip ≠ [] ∧ ip.all (·.isDigit) then some (sign * digitsToNat ip) else none
  | [ip, fp] =>
    if (ip ≠ [] ∨ fp ≠ []) ∧ ip.all (·.isDigit) ∧ fp.all (·.isDigit) then
      some (sign * ((digitsToNat ip : ℚ) + (digitsToNat fp : ℚ) / (10 ^ fp.length)))
    else none
  | _ => none

/-- Per-entry body of `NFLBoxscore.parse_percentages`: strings ending in
`%` are stripped and parsed; a `ValueError` leaves the value as-is. -/
def parsePercentValue (v : PyVal) : PyVal :=
  match v with
  | PyVal.str s =>
    if pyEndsWithChar '%' s then
      match pyFloat? (pyStripChar '%' s) with
      | some q => PyVal.num (q / 100)
      | none => PyVal.str s
    else PyVal.str s
  | v => v

/-- `NFLBoxscore.parse_percentages`: the loop over `values.items()`. -/
def parse_percentages (values : List (String × PyVal)) : List (String × PyVal) :=
  values.map (fun kv => (kv.1, parsePercentValue kv.2))

/-- Per-entry body of `NFLBoxscore.empty_string_to_none`. -/
def emptyToNoneValue (k : String) (v : PyVal) : PyVal :=
  match v with
  | PyVal.str s =>
    if pyStrip s = "" ∧ k ≠ "position" then PyVal.nan else PyVal.str s
  | v => v

/-- `NFLBoxscore.empty_string_to_none`: the comprehension over
`values.items()` (whitespace-only strings count as empty via `.strip()`,
the `position` key is exempt). -/
def empty_string_to_none (values : List (String × PyVal)) : List (String × PyVal) :=
  values.map (fun kv => (kv.1, emptyToNoneValue kv.1 kv.2))

theorem lookup_map_entry {β γ : Type} (f : String → β → γ)
    (l : List (String × β)) (k : String) :
    (l.map (fun p => (p.1, f p.1 p.2))).lookup k = (l.lookup k).map (f k) := by
  induction l with
  | nil => rfl
  | cons h t ih =>
    by_cases hk : k = h.1
    · simp [List.lookup, hk]
    · have : (k == h.1) = false := beq_false_of_ne hk
      simp [List.lookup, this, ih]

/-! ## Claim theorems: C1, C8, C9 -/

/-- C1: the claim says the season assigned for a date equals `date.year`
when `date.month > 7` and `date.year - 1` otherwise.  The cited
`calculate_nfl_season` satisfies the `otherwise` branch, but for any month
greater than 7 it returns the *date object itself* (the Python `return date`
slip, contradicting the function's own `-> int` annotation) instead of the
integer year: evaluated at 2024-09-15 it yields the date, and never an
integer, while the inline handler formula yields the claimed 2024. -/
theorem C1_calculate_nfl_season_bug :
    calculate_nfl_season ⟨2024, 9, 15⟩ = SeasonResult.dateVal ⟨2024, 9, 15⟩ ∧
    (∀ n : Int, calculate_nfl_season ⟨2024, 9, 15⟩ ≠ SeasonResult.intVal n) ∧
    assignSeason ⟨2024, 9, 15⟩ = 2024 ∧
    calculate_nfl_season ⟨2024, 3, 15⟩ = SeasonResult.intVal 2023 := by
  refine ⟨rfl, ?_, rfl, rfl⟩
  intro n h
  simp [calculate_nfl_season] at h

/-- C8: during schema validation, a string field value ending in `%` is
converted by stripping the `%` characters and dividing the parsed number
by 100; when parsing fails the raw string is left in place (not zeroed,
not dropped). -/
theorem C8_parse_percentages (vs : List (String × PyVal)) (k s : String)
    (hl : vs.lookup k = some (PyVal.str s)) (he : pyEndsWithChar '%' s = true) :
    (parse_percentages vs).lookup k =
      some (match pyFloat? (pyStripChar '%' s) with
            | some q => PyVal.num (q / 100)
            | none => PyVal.str s) := by
  unfold parse_percentages
  rw [lookup_map_entry (fun _ v => parsePercentValue v), hl]
  simp [parsePercentValue, he]

/-- Witness for C8 at the spec's own example: `"45.2%"` becomes `0.452`,
and an unparseable percentage string is kept verbatim. -/
theorem C8_parse_percentages_witness :
    (parse_percentages [("passing_first_down_pct", PyVal.str "45.2%")]).lookup
        "passing_first_down_pct" = some (PyVal.num (452 / 1000)) ∧
    (parse_percentages [("x", PyVal.str "a.b%")]).lookup "x" =
      some (PyVal.str "a.b%") := by
  constructor
  · have h := C8_parse_percentages [("passing_first_down_pct", PyVal.str "45.2%")]
      "passing_first_down_pct" "45.2%" rfl (by decide)
    rw [h, show pyFloat? (pyStripChar '%' "45.2%") =
      some (1 * ((45 : ℚ) + 2 / 10 ^ 1)) from rfl]
    norm_num
  · have h := C8_parse_percentages [("x", PyVal.str "a.b%")] "x" "a.b%" rfl (by decide)
    rw [h, show pyFloat? (pyStripChar '%' "a.b%") = none from rfl]

/-- C9: an empty-string value in any field other than `position` becomes a
missing value (`numpy.nan`), while an empty string in the `position` field
is retained as the empty string. -/
theorem C9_empty_string_to_none (vs : List (String × PyVal)) (k : String)
    (hl : vs.lookup k = some (PyVal.str "")) :
    (empty_string_to_none vs).lookup k =
      some (if k = "position" then PyVal.str "" else PyVal.nan) := by
  unfold empty_string_to_none
  rw [lookup_map_entry emptyToNoneValue, hl]
  by_cases hk : k = "position" <;>
    simp [emptyToNoneValue, hk, show pyStrip "" = "" from rfl]

/-- Witness for C9: a concrete empty `team` cell becomes missing, a
concrete empty `position` cell survives. -/
theorem C9_empty_string_to_none_witness :
    (empty_string_to_none [("team", PyVal.str ""), ("position", PyVal.str "")]).lookup
        "team" = some PyVal.nan ∧
    (empty_string_to_none [("team", PyVal.str ""), ("position", PyVal.str "")]).lookup
        "position" = some (PyVal.str "") := by
  constructor
  · have h := C9_empty_string_to_none
      [("team", PyVal.str ""), ("position", PyVal.str "")] "team" rfl
    rw [h]
    decide
  · have h := C9_empty_string_to_none
      [("team", PyVal.str ""), ("position", PyVal.str "")] "position" rfl
    rw [h]
    decide

/-! ## C10 — ContextResolver

Source: `NFLDailyStatsCollector._fetch_offensive_boxscore`
(`src/theleague/handlers/nfl_handler.py` lines 568-578):
`home_team = main_table.Tm.unique()[1]`, `away_team = main_table.Tm.unique()[0]`,
then `home_away = "H" if row.Tm == home_team else "A"` per row. -/

def uniqueOrdAux (seen : List String) : List String → List String
  | [] => []
  | x :: xs =>
    if x ∈ seen then uniqueOrdAux seen xs else x :: uniqueOrdAux (x :: seen) xs

/-- pandas `Series.unique()`: the distinct values in order of first
appearance. -/
def uniqueOrd (l : List String) : List String := uniqueOrdAux [] l

/-- The home/away resolution of `_fetch_offensive_boxscore` applied to the
`Tm` column: returns `(home_team, away_team, home_away flags)`; `none` is
the `IndexError` raised by `unique()[1]` when fewer than two distinct
teams appear. -/
def resolveContext (teams : List String) : Option (String × String × List String) :=
  match uniqueOrd teams with
  | t0 :: t1 :: _ =>
    some (t1, t0, teams.map (fun t => if t = t1 then "H" else "A"))
  | _ => none

theorem uniqueOrdAux_single_head (t0 : String) :
    ∀ (l : List String) (z : String) (zs : List String),
      uniqueOrdAux [t0] l = z :: zs →
      (l.filter (fun x => decide (x ≠ t0))).head? = some z := by
  intro l
  induction l with
  | nil => intro z zs h; simp [uniqueOrdAux] at h
  | cons x xs ih =>
    intro z zs h
    by_cases hx : x = t0
    · rw [uniqueOrdAux, if_pos (by simp [hx])] at h
      simpa [hx] using ih z zs h
    · rw [uniqueOrdAux, if_neg (by simp [hx])] at h
      simp only [List.cons.injEq] at h
      obtain ⟨rfl, -⟩ := h
      simp [List.filter, hx]

/-- C10: on a non-empty offensive table whose `Tm` column takes exactly two
distinct values, the resolver makes `away_team` the team value appearing
first in row order, `home_team` the team value appearing second (the first
value differing from the away team), and flags each row `"H"` exactly when
its team equals `home_team`, else `"A"`. -/
theorem C10_resolve_context (teams : List String)
    (h2 : (uniqueOrd teams).length = 2) :
    ∃ home away flags, resolveContext teams = some (home, away, flags) ∧
      teams.head? = some away ∧
      (teams.filter (fun t => decide (t ≠ away))).head? = some home ∧
      flags = teams.map (fun t => if t = home then "H" else "A") := by
  cases teams with
  | nil => simp [uniqueOrd, uniqueOrdAux] at h2
  | cons t ts =>
    have hu : uniqueOrd (t :: ts) = t :: uniqueOrdAux [t] ts := by
      simp [uniqueOrd, uniqueOrdAux]
    rcases haux : uniqueOrdAux [t] ts with _ | ⟨t1, rest⟩
    · rw [hu, haux] at h2; simp at h2
    · refine ⟨t1, t, _, ?_, rfl, ?_, rfl⟩
      · rw [resolveContext, hu, haux]
      · have := uniqueOrdAux_single_head t ts t1 rest haux
        simpa [List.filter] using this

/-- Witness for C10 on a concrete two-team table. -/
theorem C10_resolve_context_witness :
    ∃ home away flags,
      resolveContext ["MIN", "MIN", "PHI", "PHI"] = some (home, away, flags) ∧
      ["MIN", "MIN", "PHI", "PHI"].head? = some away ∧
      (["MIN", "MIN", "PHI", "PHI"].filter (fun t => decide (t ≠ away))).head? =
        some home ∧
      flags = ["MIN", "MIN", "PHI", "PHI"].map
        (fun t => if t = home then "H" else "A") :=
  C10_resolve_context ["MIN", "MIN", "PHI", "PHI"] (by decide)

/-! ## C3 — IdentityExtractor

Source: `NFLDailyStatsCollector._extract_ids`
(`src/theleague/handlers/nfl_handler.py` lines 529-537) followed by the
`dropna(subset=["player_id"])` of `_fetch_commented_table` (lines 688-690).
With `extract_links="body"`, a table cell is either a plain scalar or a
`(display text, hyperlink)` pair whose hyperlink may be `None`. -/

inductive Cell where
  | plain (text : String)
  | pair (text : String) (href : Option String)
  deriving DecidableEq, Repr

def cellText : Cell → String
  | .plain t => t
  | .pair t _ => t

/-- First apply of `_extract_ids`: `x[1] if isinstance(x, tuple) else None`. -/
def cellHref : Cell → Option String
  | .plain _ => none
  | .pair _ h => h

/-- Second apply of `_extract_ids`:
`x.split("/")[-1].split(".")[0] if x else None` (both `None` and the empty
string are falsy in Python). -/
def slugChars (l : List Char) : List Char :=
  (splitOnChar '.' ((splitOnChar '/' l).getLastD [])).headD []

def hrefToId : Option String → Option String
  | none => none
  | some h =>
    if h = "" then none
    else some ⟨slugChars h.data⟩

def rowId (c : Cell) : Option String := hrefToId (cellHref c)

/-- `_extract_ids` on the identity column followed by
`dropna(subset=["player_id"])`: every surviving row is its display text
paired with a non-null `player_id`. -/
def extract_ids_dropna (t : List Cell) : List (String × String) :=
  t.filterMap (fun c => (rowId c).map (fun i => (cellText c, i)))

theorem splitOnChar_length_two_le (c : Char) :
    ∀ l : List Char, c ∈ l → 2 ≤ (splitOnChar c l).length := by
  intro l
  induction l with
  | nil => intro h; cases h
  | cons a as ih =>
    intro hm
    rcases hsp : splitOnChar c as with _ | ⟨h', t'⟩
    · exact absurd hsp (splitOnChar_ne_nil c as)
    · by_cases hac : a = c
      · simp [splitOnChar, hsp, hac]
      · have hmem : c ∈ as := by
          rcases List.mem_cons.1 hm with h | h
          · exact absurd h.symm hac
          · exact h
        have := ih hmem
        rw [hsp] at this
        simp only [splitOnChar, hsp, if_neg hac]
        simpa using this

theorem splitOnChar_of_not_mem (c : Char) :
    ∀ l : List Char, c ∉ l → splitOnChar c l = [l] := by
  intro l
  induction l with
  | nil => intro _; rfl
  | cons a as ih =>
    intro hm
    have hac : ¬a = c := fun h => hm (h ▸ List.mem_cons_self a as)
    have has : c ∉ as := fun h => hm (List.mem_cons_of_mem a h)
    simp [splitOnChar, ih has, hac]

theorem splitOnChar_cons_eq (c a : Char) (as : List Char) :
    splitOnChar c (a :: as) =
      match splitOnChar c as with
      | [] => [[]]
      | h :: t => if a = c then [] :: h :: t else (a :: h) :: t := rfl

theorem splitOnChar_last_append (c : Char) :
    ∀ (p s : List Char),
      (splitOnChar c (p ++ c :: s)).getLastD [] = (splitOnChar c s).getLastD [] := by
  intro p
  induction p with
  | nil =>
    intro s
    rcases hsp : splitOnChar c s with _ | ⟨h', t'⟩
    · exact absurd hsp (splitOnChar_ne_nil c s)
    · simp [splitOnChar, hsp]
  | cons a p ih =>
    intro s
    rcases hsp : splitOnChar c (p ++ c :: s) with _ | ⟨h', t'⟩
    · exact absurd hsp (splitOnChar_ne_nil c _)
    · have hlen : 2 ≤ (splitOnChar c (p ++ c :: s)).length :=
        splitOnChar_length_two_le c _ (by simp)
      rw [hsp] at hlen
      have ht' : t' ≠ [] := by
        intro h
        rw [h] at hlen
        simp at hlen
      have hlast : (h' :: t').getLastD [] = (splitOnChar c s).getLastD [] := by
        rw [← hsp]; exact ih s
      rw [List.cons_append, splitOnChar_cons_eq, hsp]
      rw [← hlast]
      rcases t' with _ | ⟨u, us⟩
      · exact absurd rfl ht'
      · by_cases hac : a = c
        · show (if a = c then [] :: h' :: u :: us
              else (a :: h') :: u :: us).getLastD [] = _
          rw [if_pos hac]
          simp [List.getLastD_cons]
        · show (if a = c then [] :: h' :: u :: us
              else (a :: h') :: u :: us).getLastD [] = _
          rw [if_neg hac]
          simp [List.getLastD_cons]

theorem splitOnChar_head_append (c : Char) :
    ∀ (p s : List Char), c ∉ p →
      (splitOnChar c (p ++ c :: s)).headD [] = p := by
  intro p
  induction p with
  | nil =>
    intro s _
    rcases hsp : splitOnChar c s with _ | ⟨h', t'⟩
    · exact absurd hsp (splitOnChar_ne_nil c s)
    · simp [splitOnChar, hsp]
  | cons a p ih =>
    intro s hm
    have hac : ¬a = c := fun h => hm (h ▸ List.mem_cons_self a p)
    have hp : c ∉ p := fun h => hm (List.mem_cons_of_mem a h)
    rcases hsp : splitOnChar c (p ++ c :: s) with _ | ⟨h', t'⟩
    · exact absurd hsp (splitOnChar_ne_nil c _)
    · have hh : h' = p := by
        have := ih s hp
        rw [hsp] at this
        simpa using this
      simp [splitOnChar, hsp, hac, hh]

/-- C3 counterexample: a row whose hyperlink is present but malformed (its
last path segment is empty, so no identity slug of the form `Name123` can
be computed) is NOT excluded: it survives with `player_id = ""`, because
pandas `dropna` only removes `None`, not the empty string produced by
`"".split(".")[0]`.  The claim requires this row to be excluded. -/
theorem C3_counterexample :
    extract_ids_dropna [Cell.pair "Malformed" (some "/players/")] =
      [("Malformed", "")] ∧
    extract_ids_dropna [Cell.pair "Malformed" (some "/players/")] ≠ [] := by
  exact ⟨rfl, by decide⟩

/-- C3 (amended): for every row whose identity cell carries a hyperlink of
the form `.../X/Name123.ext` (final segment a dot-free name and an
extension), the extractor assigns `player_id = "Name123"` and keeps the
row; rows with no link, a `None` link, or an empty-string link are
excluded; and extraction is row-wise (distributes over table
concatenation).  (As `C3_counterexample` shows, a malformed link with an
empty final path segment is kept with an empty `player_id`, not excluded.) -/
theorem C3_extract_ids (txt : String) (p name ext : List Char)
    (h1 : '/' ∉ name) (h2 : '.' ∉ name) (h3 : '/' ∉ ext) :
    extract_ids_dropna [Cell.pair txt (some ⟨p ++ '/' :: (name ++ '.' :: ext)⟩)] =
      [(txt, ⟨name⟩)] ∧
    extract_ids_dropna [Cell.plain txt] = [] ∧
    extract_ids_dropna [Cell.pair txt none] = [] ∧
    extract_ids_dropna [Cell.pair txt (some "")] = [] ∧
    (∀ t1 t2 : List Cell, extract_ids_dropna (t1 ++ t2) =
      extract_ids_dropna t1 ++ extract_ids_dropna t2) := by
  refine ⟨?_, rfl, rfl, rfl, ?_⟩
  · have hne : (⟨p ++ '/' :: (name ++ '.' :: ext)⟩ : String) ≠ "" := by
      intro h
      have : p ++ '/' :: (name ++ '.' :: ext) = [] := congrArg String.data h
      simp at this
    have hmem : '/' ∉ name ++ '.' :: ext := by
      intro h
      rcases List.mem_append.1 h with h | h
      · exact h1 h
      · rcases List.mem_cons.1 h with h | h
        · exact absurd h (by decide)
        · exact h3 h
    have hslug : slugChars (p ++ '/' :: (name ++ '.' :: ext)) = name := by
      rw [slugChars, splitOnChar_last_append, splitOnChar_of_not_mem '/' _ hmem]
      exact splitOnChar_head_append '.' name ext h2
    simp only [extract_ids_dropna, List.filterMap, rowId, cellHref, hrefToId,
      if_neg hne, cellText]
    rw [hslug]
    rfl
  · intro t1 t2
    simp [extract_ids_dropna]

/-- Witness for the amended C3 at the repository's own unit-test URL. -/
theorem C3_extract_ids_witness :
    extract_ids_dropna [Cell.pair "Justin Jefferson"
        (some ⟨"https://www.pro-football-reference.com/players/J".data ++
          '/' :: ("JeffJu00".data ++ '.' :: "htm".data)⟩)] =
      [("Justin Jefferson", ⟨"JeffJu00".data⟩)] ∧
    extract_ids_dropna [Cell.plain "League Average"] = [] :=
  have h := C3_extract_ids "Justin Jefferson"
    "https://www.pro-football-reference.com/players/J".data
    "JeffJu00".data "htm".data (by decide) (by decide) (by decide)
  ⟨h.1, h.2.1⟩

/-! ## C4 — Field-goal row filter

Source: `NFLDailyStatsCollector._fetch_fg_boxscore`
(`src/theleague/handlers/nfl_handler.py` lines 601-611): after extracting
player ids from the scoring table, rows are kept only when
`Detail.str.contains("field goal")` holds and
`Detail.str.contains("field goal return")` does not.  The patterns contain
no regex metacharacters, so `str.contains` is substring containment. -/

structure FGRow where
  detail : String
  player_id : String
  tm : String
  deriving DecidableEq, Repr

/-- pandas `Series.str.contains(pat)` for the literal patterns used here:
`pat` occurs as a contiguous substring of the cell. -/
def strContainsSub (hay needle : String) : Bool := decide (needle.data <:+: hay.data)

/-- The row filter of `_fetch_fg_boxscore`:
`(Detail.str.contains("field goal")) & (Detail.str.contains("field goal return") == False)`. -/
def fgFilter (rows : List FGRow) : List FGRow :=
  rows.filter (fun r =>
    strContainsSub r.detail "field goal" &&
      !(strContainsSub r.detail "field goal return"))

/-- C4: every scoring-detail row surviving the field-goal filter has a
description containing the substring `"field goal"` and not containing the
substring `"field goal return"`; in particular a row whose description
contains `"field goal return"` is excluded even though it also contains
`"field goal"`. -/
theorem C4_fg_filter (rows : List FGRow) (r : FGRow) (h : r ∈ fgFilter rows) :
    ("field goal".data <:+: r.detail.data) ∧
      ¬("field goal return".data <:+: r.detail.data) := by
  rw [fgFilter, List.mem_filter] at h
  obtain ⟨-, h2⟩ := h
  rw [Bool.and_eq_true] at h2
  obtain ⟨ha, hb⟩ := h2
  refine ⟨of_decide_eq_true ha, ?_⟩
  rw [Bool.not_eq_true'] at hb
  exact of_decide_eq_false hb

/-- Witness for C4: a made field goal passes the filter and satisfies the
property; the filter also concretely drops a field-goal-return row and a
non-kicking row. -/
theorem C4_fg_filter_witness :
    (("field goal".data <:+:
        ("Jason Sanders 21 yard field goal" : String).data) ∧
      ¬("field goal return".data <:+:
        ("Jason Sanders 21 yard field goal" : String).data)) ∧
    fgFilter [⟨"Jason Sanders 21 yard field goal", "SandJa00", "MIA"⟩,
        ⟨"Keion Crossen 50 yard field goal return touchdown", "CrosKe00", "NYG"⟩,
        ⟨"Tyreek Hill 5 yard pass from Tua Tagovailoa", "HillTy00", "MIA"⟩] =
      [⟨"Jason Sanders 21 yard field goal", "SandJa00", "MIA"⟩] := by
  constructor
  · exact C4_fg_filter
      [⟨"Jason Sanders 21 yard field goal", "SandJa00", "MIA"⟩,
        ⟨"Keion Crossen 50 yard field goal return touchdown", "CrosKe00", "NYG"⟩,
        ⟨"Tyreek Hill 5 yard pass from Tua Tagovailoa", "HillTy00", "MIA"⟩]
      ⟨"Jason Sanders 21 yard field goal", "SandJa00", "MIA"⟩ (by decide)
  · decide

/-! ## C2 / C6 — DuplicateResolver

Source: `NFLDailyStatsCollector._process_and_upload_data`
(`src/theleague/handlers/nfl_handler.py` lines 413-435): the reduced key
is `key_cols = ["player", "player_id", "date", "week", "season",
"home_team", "away_team", "source_url"]` (the second assignment of
`key_cols` overwrites the first, so `team` is not part of it); the frame is
sorted by that key (`sort_values`, nulls last), grouped
(`groupby(key_cols, dropna=False)`, so all-null key fields still form
groups), and each group collapses to `group.ffill().bfill().iloc[0]` —
per column, the first non-null value down the group. -/

/-- The reduced duplicate-resolution key.  `week` is a string in the
source (it is read off the schedule-page link text); `season` is the
integer produced by the season assignment. -/
structure RKey where
  player : Option String
  player_id : Option String
  date : Option String
  week : Option String
  season : Option Int
  home_team : Option String
  away_team : Option String
  source_url : Option String
  deriving DecidableEq, Repr

/-- Comparator on nullable columns: missing values sort last, matching
pandas `na_position="last"` in both `sort_values` and `groupby`. -/
def cmpOptBy {α : Type} (cmp : α → α → Ordering) : Option α → Option α → Ordering
  | none, none => .eq
  | none, some _ => .gt
  | some _, none => .lt
  | some a, some b => cmp a b

/-- Lexicographic comparison of two reduced keys, column by column in the
order of `key_cols`. -/
def keyCmp : RKey → RKey → Ordering :=
  compareLex (fun a b => cmpOptBy compare a.player b.player) <|
  compareLex (fun a b => cmpOptBy compare a.player_id b.player_id) <|
  compareLex (fun a b => cmpOptBy compare a.date b.date) <|
  compareLex (fun a b => cmpOptBy compare a.week b.week) <|
  compareLex (fun a b => cmpOptBy compare a.season b.season) <|
  compareLex (fun a b => cmpOptBy compare a.home_team b.home_team) <|
  compareLex (fun a b => cmpOptBy compare a.away_team b.away_team)
  (fun a b => cmpOptBy compare a.source_url b.source_url)

theorem transCmp_cmpOptBy {α : Type} {cmp : α → α → Ordering}
    (h : Batteries.TransCmp cmp) : Batteries.TransCmp (cmpOptBy cmp) where
  symm x y := by
    cases x <;> cases y <;> simp [cmpOptBy, Ordering.swap]
    exact h.symm ..
  le_trans {x y z} h1 h2 := by
    cases x <;> cases y <;> cases z <;>
      simp_all [cmpOptBy]
    exact h.le_trans h1 h2

theorem transCmp_comap {α β : Type} {cmp : β → β → Ordering}
    (h : Batteries.TransCmp cmp) (f : α → β) :
    Batteries.TransCmp (fun a b => cmp (f a) (f b)) where
  symm x y := h.symm (f x) (f y)
  le_trans h1 h2 := h.le_trans h1 h2

theorem cmpOptBy_eq_iff {α : Type} {cmp : α → α → Ordering}
    (h : ∀ x y : α, cmp x y = .eq ↔ x = y) :
    ∀ x y : Option α, cmpOptBy cmp x y = .eq ↔ x = y := by
  intro x y
  cases x <;> cases y <;> simp [cmpOptBy, h]

theorem compare_str_eq_iff (x y : String) : compare x y = .eq ↔ x = y :=
  Batteries.BEqCmp.cmp_iff_eq

theorem compare_int_eq_iff (x y : Int) : compare x y = .eq ↔ x = y :=
  Batteries.BEqCmp.cmp_iff_eq

theorem keyCmp_transCmp : Batteries.TransCmp keyCmp := by
  haveI hS : Batteries.TransCmp (α := String) compare :=
    inferInstanceAs (Batteries.TransOrd String)
  haveI hI : Batteries.TransCmp (α := Int) compare :=
    inferInstanceAs (Batteries.TransOrd Int)
  haveI h1 : Batteries.TransCmp (fun a b : RKey => cmpOptBy compare a.player b.player) :=
    transCmp_comap (transCmp_cmpOptBy hS) (fun k => k.player)
  haveI h2 : Batteries.TransCmp (fun a b : RKey => cmpOptBy compare a.player_id b.player_id) :=
    transCmp_comap (transCmp_cmpOptBy hS) (fun k => k.player_id)
  haveI h3 : Batteries.TransCmp (fun a b : RKey => cmpOptBy compare a.date b.date) :=
    transCmp_comap (transCmp_cmpOptBy hS) (fun k => k.date)
  haveI h4 : Batteries.TransCmp (fun a b : RKey => cmpOptBy compare a.week b.week) :=
    transCmp_comap (transCmp_cmpOptBy hS) (fun k => k.week)
  haveI h5 : Batteries.TransCmp (fun a b : RKey => cmpOptBy compare a.season b.season) :=
    transCmp_comap (transCmp_cmpOptBy hI) (fun k => k.season)
  haveI h6 : Batteries.TransCmp (fun a b : RKey => cmpOptBy compare a.home_team b.home_team) :=
    transCmp_comap (transCmp_cmpOptBy hS) (fun k => k.home_team)
  haveI h7 : Batteries.TransCmp (fun a b : RKey => cmpOptBy compare a.away_team b.away_team) :=
    transCmp_comap (transCmp_cmpOptBy hS) (fun k => k.away_team)
  haveI h8 : Batteries.TransCmp (fun a b : RKey => cmpOptBy compare a.source_url b.source_url) :=
    transCmp_comap (transCmp_cmpOptBy hS) (fun k => k.source_url)
  unfold keyCmp
  infer_instance

theorem keyCmp_eq_iff (a b : RKey) : keyCmp a b = .eq ↔ a = b := by
  cases a
  cases b
  simp [keyCmp, compareLex, Ordering.then_eq_eq, cmpOptBy_eq_iff compare_str_eq_iff,
    cmpOptBy_eq_iff compare_int_eq_iff, RKey.mk.injEq, and_assoc]

/-- One merged row: its reduced key and the remaining (non-key) columns —
`team`, `position`, `home_away` and the stat columns — as nullable cells
in a fixed column order. -/
structure DRow where
  key : RKey
  data : List (Option String)
  deriving DecidableEq, Repr

/-- `sort_values(key_cols)` ordering on rows. -/
def rowLe (a b : DRow) : Prop := keyCmp a.key b.key ≠ .gt

instance : DecidableRel rowLe := fun a b =>
  inferInstanceAs (Decidable (keyCmp a.key b.key ≠ .gt))

instance : IsTotal DRow rowLe where
  total a b := by
    rcases hc : keyCmp a.key b.key with _ | _ | _
    · exact Or.inl (by simp [rowLe, hc])
    · exact Or.inl (by simp [rowLe, hc])
    · refine Or.inr ?_
      have := keyCmp_transCmp.symm a.key b.key
      rw [hc] at this
      simp only [Ordering.swap] at this
      simp [rowLe, ← this]

instance : IsTrans DRow rowLe where
  trans _ _ _ hab hbc := keyCmp_transCmp.le_trans hab hbc

/-- `merged.sort_values(key_cols)` (nulls last; ties left in input order —
the source's quicksort leaves equal-key order unspecified, and any
deterministic choice realises it). -/
def sortRows (rows : List DRow) : List DRow := List.insertionSort rowLe rows

/-- `groupby(key_cols, dropna=False)` on the key-sorted frame: chunk
maximal runs of key-equal rows; on sorted input these runs are exactly the
groupby groups.  Each chunk is its first row paired with the rest. -/
def chunkByKey : List DRow → List (DRow × List DRow)
  | [] => []
  | a :: as =>
    match chunkByKey as with
    | [] => [(a, [])]
    | (b, g) :: rest =>
      if a.key = b.key then (a, b :: g) :: rest else (a, []) :: (b, g) :: rest

/-- One forward-fill step: missing entries of `acc` are filled from `r`. -/
def fillRow (acc r : List (Option String)) : List (Option String) :=
  acc.zipWith (fun x y => x.orElse (fun _ => y)) r

/-- `combine_duplicate_rows` (lines 413-415):
`group.ffill().bfill().iloc[0]` — for every column the first non-null
value down the group; the key columns are constant on the group, so the
group's key is kept. -/
def combine_duplicate_rows (g : DRow × List DRow) : DRow :=
  ⟨g.1.key, g.2.foldl (fun acc r => fillRow acc r.data) g.1.data⟩

/-- The duplicate-collapse step of `_process_and_upload_data`
(lines 429-435): sort by the reduced key, group by it, collapse every
group to a single row. -/
def resolveDuplicates (rows : List DRow) : List DRow :=
  (chunkByKey (sortRows rows)).map combine_duplicate_rows

theorem chunkByKey_cons_eq (a : DRow) (as : List DRow) :
    chunkByKey (a :: as) =
      match chunkByKey as with
      | [] => [(a, [])]
      | (b, g) :: rest =>
        if a.key = b.key then (a, b :: g) :: rest else (a, []) :: (b, g) :: rest := rfl

theorem chunkByKey_cons_head (a : DRow) (as : List DRow) :
    ∃ g rest, chunkByKey (a :: as) = (a, g) :: rest := by
  rcases h : chunkByKey as with _ | ⟨⟨b, g⟩, rest⟩
  · exact ⟨[], [], by simp [chunkByKey, h]⟩
  · by_cases hk : a.key = b.key
    · exact ⟨b :: g, rest, by simp [chunkByKey, h, hk]⟩
    · exact ⟨[], (b, g) :: rest, by simp [chunkByKey, h, hk]⟩

/-- On a key-sorted list the chunk heads have strictly increasing keys. -/
theorem chunkByKey_heads_chain :
    ∀ l : List DRow, List.Sorted rowLe l →
      List.Chain' (fun a b : DRow => keyCmp a.key b.key = .lt)
        ((chunkByKey l).map Prod.fst) := by
  intro l
  induction l with
  | nil => intro _; simp [chunkByKey]
  | cons a as ih =>
    intro hs
    have hs' : List.Sorted rowLe as := hs.of_cons
    have hrel : ∀ b ∈ as, rowLe a b := (List.sorted_cons.1 hs).1
    cases as with
    | nil => simp [chunkByKey]
    | cons y ys =>
      obtain ⟨g, rest, hchunk⟩ := chunkByKey_cons_head y ys
      have hy : rowLe a y := hrel y (List.mem_cons_self y ys)
      have ihc := ih hs'
      rw [hchunk] at ihc
      rw [chunkByKey_cons_eq, hchunk]
      by_cases hk : a.key = y.key
      · show List.Chain' (fun a b : DRow => keyCmp a.key b.key = .lt)
          (List.map Prod.fst
            (if a.key = y.key then (a, y :: g) :: rest else (a, []) :: (y, g) :: rest))
        rw [if_pos hk]
        simp only [List.map_cons] at ihc ⊢
        refine ihc.tail.cons' ?_
        intro z hz
        have hyz := ihc.rel_head? hz
        show keyCmp a.key z.key = .lt
        rw [hk]
        exact hyz
      · show List.Chain' (fun a b : DRow => keyCmp a.key b.key = .lt)
          (List.map Prod.fst
            (if a.key = y.key then (a, y :: g) :: rest else (a, []) :: (y, g) :: rest))
        rw [if_neg hk]
        simp only [List.map_cons] at ihc ⊢
        refine ihc.cons ?_
        rcases hc : keyCmp a.key y.key with _ | _ | _
        · rfl
        · exact absurd ((keyCmp_eq_iff _ _).1 hc) hk
        · exact absurd hc hy

theorem chunkByKey_of_adjacent_ne :
    ∀ l : List DRow, List.Chain' (fun a b : DRow => a.key ≠ b.key) l →
      chunkByKey l = l.map (fun r => (r, [])) := by
  intro l
  induction l with
  | nil => intro _; rfl
  | cons a as ih =>
    intro h
    cases as with
    | nil => rfl
    | cons y ys =>
      have hih := ih h.tail
      rw [chunkByKey_cons_eq, hih]
      have hne : a.key ≠ y.key := h.rel_head
      simp only [List.map_cons]
      show (if a.key = y.key then (a, [y]) :: ys.map (fun r => (r, []))
          else (a, []) :: (y, []) :: ys.map (fun r => (r, []))) =
        (a, []) :: (y, []) :: ys.map (fun r => (r, []))
      rw [if_neg hne]

theorem combine_duplicate_rows_singleton (r : DRow) :
    combine_duplicate_rows (r, []) = r := rfl

theorem resolveDuplicates_key_chain (rows : List DRow) :
    List.Chain' (fun a b : DRow => keyCmp a.key b.key = .lt)
      (resolveDuplicates rows) := by
  have h := chunkByKey_heads_chain (sortRows rows)
    (List.sorted_insertionSort rowLe rows)
  rw [List.chain'_map] at h
  rw [resolveDuplicates, List.chain'_map]
  exact h

theorem resolveDuplicates_sorted (rows : List DRow) :
    List.Sorted rowLe (resolveDuplicates rows) := by
  have h := resolveDuplicates_key_chain rows
  haveI : IsTrans DRow (fun a b : DRow => keyCmp a.key b.key = .lt) :=
    ⟨fun _ _ _ hab hbc => keyCmp_transCmp.lt_trans hab hbc⟩
  rw [List.chain'_iff_pairwise] at h
  exact h.imp (fun hab => by simp [rowLe, hab])

theorem resolveDuplicates_eq_self (l : List DRow) (hs : List.Sorted rowLe l)
    (hne : List.Chain' (fun a b : DRow => a.key ≠ b.key) l) :
    resolveDuplicates l = l := by
  rw [resolveDuplicates, sortRows, hs.insertionSort_eq,
    chunkByKey_of_adjacent_ne l hne, List.map_map]
  have hid : (combine_duplicate_rows ∘ fun r : DRow => (r, [])) = id :=
    funext fun r => rfl
  rw [hid, List.map_id]

/-- C6: DuplicateResolver is idempotent — applying the
sort / group-by-reduced-key / forward-fill-backward-fill / keep-first
collapse to its own output returns that output unchanged (so in
particular the same row set). -/
theorem C6_resolve_duplicates_idempotent (rows : List DRow) :
    resolveDuplicates (resolveDuplicates rows) = resolveDuplicates rows := by
  refine resolveDuplicates_eq_self _ (resolveDuplicates_sorted rows) ?_
  have h := resolveDuplicates_key_chain rows
  refine h.imp ?_
  intro a b hab he
  rw [he, (keyCmp_eq_iff b.key b.key).2 rfl] at hab
  cases hab

/-- C2 (amended): after DuplicateResolver runs, the record set has exactly
one record per *reduced key* — the full grouping tuple `(player,
player_id, date, week, season, home_team, away_team, source_url)` — i.e.
the output keys are pairwise distinct.  (Exactly-one-per-`(player_id,
date)` fails: see `C2_counterexample`.) -/
theorem C2_one_record_per_reduced_key (rows : List DRow) :
    ((resolveDuplicates rows).map DRow.key).Nodup := by
  have h := resolveDuplicates_key_chain rows
  haveI : IsTrans DRow (fun a b : DRow => keyCmp a.key b.key = .lt) :=
    ⟨fun _ _ _ hab hbc => keyCmp_transCmp.lt_trans hab hbc⟩
  rw [List.chain'_iff_pairwise] at h
  rw [List.Nodup, List.pairwise_map]
  refine h.imp ?_
  intro a b hab he
  rw [he, (keyCmp_eq_iff b.key b.key).2 rfl] at hab
  cases hab

/-- C2 counterexample: two merged rows agreeing on `(player_id, date)`
(and on player, week, season, home/away teams) but carrying different
`source_url` values fall into different groups — `source_url` is part of
the reduced grouping key — so the resolver's output contains two records
for the same `(player_id, date)` pair, refuting exactly-one-per-pair. -/
theorem C2_counterexample :
    ((resolveDuplicates
        [⟨⟨some "Justin Jefferson", some "JeffJu00", some "2023-09-10", some "1",
            some 2023, some "PHI", some "MIN", some "url-a"⟩, [some "MIN", none]⟩,
         ⟨⟨some "Justin Jefferson", some "JeffJu00", some "2023-09-10", some "1",
            some 2023, some "PHI", some "MIN", some "url-b"⟩,
          [none, some "WR"]⟩]).map
      (fun r => (r.key.player_id, r.key.date))) =
      [(some "JeffJu00", some "2023-09-10"),
        (some "JeffJu00", some "2023-09-10")] ∧
    ¬ ((resolveDuplicates
        [⟨⟨some "Justin Jefferson", some "JeffJu00", some "2023-09-10", some "1",
            some 2023, some "PHI", some "MIN", some "url-a"⟩, [some "MIN", none]⟩,
         ⟨⟨some "Justin Jefferson", some "JeffJu00", some "2023-09-10", some "1",
            some 2023, some "PHI", some "MIN", some "url-b"⟩,
          [none, some "WR"]⟩]).map
      (fun r => (r.key.player_id, r.key.date))).Nodup := by
  constructor
  · decide
  · decide

/-! ## C5 — TableMerger

Source: `NFLDailyStatsCollector._process_and_upload_data`
(`src/theleague/handlers/nfl_handler.py` lines 342-360): after filtering
out empty frames, `reduce(lambda left, right: pd.merge(left, right,
on=[...8 key columns...], how="outer"), dfs_wo_source_url)`.  A category
table is its column list plus rows of (merge key, non-key fields); pandas
renames a non-key column present on both sides of one merge to `…_x` /
`…_y`, and two rows join when their key tuples are equal (null key fields
match null key fields). -/

/-- The eight-column merge key of the outer-join chain. -/
structure MKey where
  player_id : Option String
  player : Option String
  team : Option String
  date : Option String
  week : Option String
  home_team : Option String
  away_team : Option String
  home_away : Option String
  deriving DecidableEq, Repr

/-- One category table: its non-key column names and its rows, each a
merge key plus the row's non-null cells as (column, value) pairs. -/
structure STable where
  cols : List String
  rows : List (MKey × List (String × String))
  deriving DecidableEq, Repr

/-- pandas suffixing: columns in `shared` (present on both sides of a
merge) get `suf` appended. -/
def renameShared (shared : List String) (suf : String)
    (fields : List (String × String)) : List (String × String) :=
  fields.map (fun p => (if p.1 ∈ shared then p.1 ++ suf else p.1, p.2))

/-- `pd.merge(A, B, on=MergeKey, how="outer")`. -/
def outerJoin (A B : STable) : STable :=
  let shared := A.cols.filter (fun c => decide (c ∈ B.cols))
  ⟨A.cols.map (fun c => if c ∈ shared then c ++ "_x" else c) ++
    B.cols.map (fun c => if c ∈ shared then c ++ "_y" else c),
   A.rows.flatMap (fun a =>
     match B.rows.filter (fun b => decide (b.1 = a.1)) with
     | [] => [(a.1, renameShared shared "_x" a.2)]
     | ms => ms.map (fun b =>
         (a.1, renameShared shared "_x" a.2 ++ renameShared shared "_y" b.2))) ++
   (B.rows.filter (fun b => A.rows.all (fun a => !decide (a.1 = b.1)))).map
     (fun b => (b.1, renameShared shared "_y" b.2))⟩

/-- The merge chain of `_process_and_upload_data`: drop empty frames
(`dfs_to_merge = [df for df in dfs_to_merge if not df.empty]`), return
`None` when nothing remains (`"No data to merge"`), else left-to-right
`reduce` of outer joins. -/
def mergeTables (dfs : List STable) : Option STable :=
  match dfs.filter (fun d => !d.rows.isEmpty) with
  | [] => none
  | d :: ds => some (ds.foldl outerJoin d)

/-- The row's cells as a partial function from column names. -/
def rowFun (fields : List (String × String)) : String → Option String :=
  fun c => (fields.find? (fun p => decide (p.1 = c))).map Prod.snd

def rowsOf : Option STable → List (MKey × List (String × String))
  | none => []
  | some T => T.rows

/-- Membership of an abstract row — a key and a column-valuation — in a
merge result; comparing valuations rather than cell lists makes the "row
set" independent of cell order inside a row. -/
def HasRow (T : Option STable) (k : MKey) (f : String → Option String) : Prop :=
  ∃ r ∈ rowsOf T, r.1 = k ∧ rowFun r.2 = f

/-- Two merge results have the same row set (row order ignored). -/
def SameRows (A B : Option STable) : Prop := ∀ k f, HasRow A k f ↔ HasRow B k f

/-- A concrete merge key shared by the counterexample tables. -/
def exKey : MKey :=
  ⟨some "SandJa00", some "Jason Sanders", some "MIA", some "2023-09-10",
    some "1", some "MIA", some "LAC", some "H"⟩

/-- A field-goal style table carrying a `position` column. -/
def exTabFG : STable := ⟨["position"], [(exKey, [("position", "K")])]⟩

/-- A snap-count style table also carrying a `position` column. -/
def exTabSnap : STable := ⟨["position"], [(exKey, [("position", "PK")])]⟩

/-- C5 counterexample: two category tables sharing the non-key column
`position` (as the field-goal and snap-count tables do in the source,
hence its `position_x`/`position_y` condensing step).  Merging
`[exTabFG, exTabSnap]` puts `"K"` into `position_x`, merging in the other
order puts `"PK"` there, so the two orders do not yield the same row set:
the claim fails for collections whose tables share a non-key column. -/
theorem C5_counterexample :
    ¬ SameRows (mergeTables [exTabFG, exTabSnap])
      (mergeTables [exTabSnap, exTabFG]) := by
  intro h
  have h1 : HasRow (mergeTables [exTabFG, exTabSnap]) exKey
      (rowFun [("position_x", "K"), ("position_y", "PK")]) := by
    refine ⟨(exKey, [("position_x", "K"), ("position_y", "PK")]), ?_, rfl, rfl⟩
    show _ ∈ rowsOf (mergeTables [exTabFG, exTabSnap])
    rw [show mergeTables [exTabFG, exTabSnap] =
      some ⟨["position_x", "position_y"],
        [(exKey, [("position_x", "K"), ("position_y", "PK")])]⟩ from rfl]
    simp [rowsOf]
  have h2 := (h exKey (rowFun [("position_x", "K"), ("position_y", "PK")])).1 h1
  obtain ⟨r, hr, -, hf⟩ := h2
  rw [show mergeTables [exTabSnap, exTabFG] =
    some ⟨["position_x", "position_y"],
      [(exKey, [("position_x", "PK"), ("position_y", "K")])]⟩ from rfl] at hr
  simp only [rowsOf, List.mem_singleton] at hr
  subst hr
  have := congrFun hf "position_x"
  simp [rowFun] at this

/-- Non-key column sets of two tables are disjoint. -/
def colDisjoint (A B : STable) : Prop := ∀ c ∈ A.cols, c ∉ B.cols

/-- A table has at most one row per merge key. -/
def keysNodup (T : STable) : Prop := (T.rows.map Prod.fst).Nodup

/-- Every cell of a table lives in one of its declared columns. -/
def fieldsInCols (T : STable) : Prop := ∀ r ∈ T.rows, ∀ p ∈ r.2, p.1 ∈ T.cols

/-- The rows of a suffix-free outer join. -/
def joinRows (R T : STable) : List (MKey × List (String × String)) :=
  R.rows.flatMap (fun a =>
    match T.rows.filter (fun b => decide (b.1 = a.1)) with
    | [] => [(a.1, a.2)]
    | ms => ms.map (fun b => (a.1, a.2 ++ b.2))) ++
  T.rows.filter (fun b => R.rows.all (fun a => !decide (a.1 = b.1)))

theorem renameShared_nil (suf : String) (fields : List (String × String)) :
    renameShared [] suf fields = fields := by
  unfold renameShared
  have : (fun p : String × String => ((if p.1 ∈ ([] : List String) then p.1 ++ suf
      else p.1), p.2)) = id := by
    funext p
    simp
  rw [this, List.map_id]

theorem outerJoin_of_disjoint (R T : STable) (hdis : colDisjoint R T) :
    outerJoin R T = ⟨R.cols ++ T.cols, joinRows R T⟩ := by
  have hsh : R.cols.filter (fun c => decide (c ∈ T.cols)) = [] := by
    rw [List.filter_eq_nil_iff]
    intro c hc
    simp only [decide_eq_true_eq]
    exact hdis c hc
  unfold outerJoin joinRows
  rw [hsh]
  simp [renameShared_nil, Prod.mk.eta]

theorem find?_of_mem_keys_nodup {rows : List (MKey × List (String × String))}
    {r : MKey × List (String × String)} (hm : r ∈ rows)
    (hn : (rows.map Prod.fst).Nodup) :
    rows.find? (fun x => decide (x.1 = r.1)) = some r := by
  induction rows with
  | nil => cases hm
  | cons a l ih =>
    rcases List.mem_cons.1 hm with rfl | hm'
    · simp [List.find?_cons]
    · have hne : ¬(a.1 = r.1) := by
        intro he
        have : r.1 ∈ l.map Prod.fst := List.mem_map_of_mem Prod.fst hm'
        rw [← he] at this
        exact (List.nodup_cons.1 hn).1 this
      have hd : decide (a.1 = r.1) = false := by simpa using hne
      rw [List.find?_cons, hd]
      exact ih hm' (List.nodup_cons.1 hn).2

theorem filter_key_of_nodup {rows : List (MKey × List (String × String))}
    (hn : (rows.map Prod.fst).Nodup) (k : MKey) :
    rows.filter (fun b => decide (b.1 = k)) = [] ∨
      ∃ b ∈ rows, b.1 = k ∧ rows.filter (fun b => decide (b.1 = k)) = [b] := by
  induction rows with
  | nil => exact Or.inl rfl
  | cons a l ih =>
    rcases ih (List.nodup_cons.1 hn).2 with hnil | ⟨b, hb, hbk, hfil⟩
    · by_cases ha : a.1 = k
      · refine Or.inr ⟨a, List.mem_cons_self a l, ha, ?_⟩
        rw [List.filter_cons, if_pos (by simpa using ha), hnil]
      · rw [List.filter_cons, if_neg (by simpa using ha)]
        exact Or.inl hnil
    · by_cases ha : a.1 = k
      · exfalso
        have : b.1 ∈ l.map Prod.fst := List.mem_map_of_mem Prod.fst hb
        rw [hbk, ← ha] at this
        exact (List.nodup_cons.1 hn).1 this
      · refine Or.inr ⟨b, List.mem_cons_of_mem a hb, hbk, ?_⟩
        rw [List.filter_cons, if_neg (by simpa using ha), hfil]

theorem mem_joinRows {R T : STable} (hTk : keysNodup T)
    (r' : MKey × List (String × String)) :
    r' ∈ joinRows R T ↔
      ((∃ a ∈ R.rows, (∀ b ∈ T.rows, b.1 ≠ a.1) ∧ r' = (a.1, a.2)) ∨
        (∃ a ∈ R.rows, ∃ b ∈ T.rows, b.1 = a.1 ∧ r' = (a.1, a.2 ++ b.2)) ∨
        (∃ b ∈ T.rows, (∀ a ∈ R.rows, a.1 ≠ b.1) ∧ r' = (b.1, b.2))) := by
  rw [joinRows, List.mem_append, List.mem_flatMap]
  constructor
  · rintro (⟨a, ha, hmem⟩ | hright)
    · rcases filter_key_of_nodup hTk a.1 with hnil | ⟨b, hb, hbk, hfil⟩
      · rw [hnil] at hmem
        simp only [List.mem_singleton] at hmem
        refine Or.inl ⟨a, ha, ?_, hmem⟩
        intro b hb
        have := List.filter_eq_nil_iff.1 hnil b hb
        simpa using this
      · rw [hfil] at hmem
        simp only [List.map_cons, List.map_nil, List.mem_singleton] at hmem
        exact Or.inr (Or.inl ⟨a, ha, b, hb, hbk, hmem⟩)
    · rw [List.mem_filter] at hright
      obtain ⟨hbT, hall⟩ := hright
      refine Or.inr (Or.inr ⟨r', hbT, ?_, rfl⟩)
      intro a ha
      have := List.all_eq_true.1 hall a ha
      simpa using this
  · rintro (⟨a, ha, hnone, rfl⟩ | ⟨a, ha, b, hb, hbk, rfl⟩ | ⟨b, hb, hnone, rfl⟩)
    · refine Or.inl ⟨a, ha, ?_⟩
      have hnil : T.rows.filter (fun b => decide (b.1 = a.1)) = [] := by
        rw [List.filter_eq_nil_iff]
        intro b hbT
        simpa using hnone b hbT
      rw [hnil]
      simp
    · refine Or.inl ⟨a, ha, ?_⟩
      rcases filter_key_of_nodup hTk a.1 with hnil | ⟨b', hb', hbk', hfil⟩
      · exfalso
        have := List.filter_eq_nil_iff.1 hnil b hb
        simp [hbk] at this
      · have hbb : b = b' := by
          have : b ∈ T.rows.filter (fun x => decide (x.1 = a.1)) := by
            rw [List.mem_filter]
            exact ⟨hb, by simpa using hbk⟩
          rw [hfil] at this
          simpa using this
        rw [hfil]
        subst hbb
        simp
    · refine Or.inr ?_
      rw [List.mem_filter]
      refine ⟨hb, ?_⟩
      rw [List.all_eq_true]
      intro a ha
      simpa using hnone a ha

/-- The value a merge of `ts` should put at key `k`, column `c`: the value
from the (under disjointness unique) table owning column `c` and holding a
row at `k`. -/
def semVal (ts : List STable) (k : MKey) (c : String) : Option String :=
  ts.findSome? (fun T => (T.rows.find? (fun r => decide (r.1 = k))).bind
    (fun r => rowFun r.2 c))

theorem rowFun_append (f1 f2 : List (String × String)) (c : String) :
    rowFun (f1 ++ f2) c = (rowFun f1 c).or (rowFun f2 c) := by
  unfold rowFun
  rw [List.find?_append]
  cases List.find? (fun p => decide (p.1 = c)) f1 <;> simp

theorem rowFun_some_mem {fields : List (String × String)} {c v : String}
    (h : rowFun fields c = some v) : (c, v) ∈ fields := by
  unfold rowFun at h
  rcases hf : fields.find? (fun p => decide (p.1 = c)) with _ | ⟨p⟩
  · rw [hf] at h; cases h
  · rw [hf] at h
    simp at h
    have hm := List.mem_of_find?_eq_some hf
    have hp := List.find?_some hf
    simp only [decide_eq_true_eq] at hp
    have : p = (c, v) := by
      cases p
      simp_all
    rw [← this]
    exact hm

theorem semVal_cons (T : STable) (ts : List STable) (k : MKey) (c : String) :
    semVal (T :: ts) k c =
      ((T.rows.find? (fun r => decide (r.1 = k))).bind
        (fun r => rowFun r.2 c)).or (semVal ts k c) := by
  unfold semVal
  rw [List.findSome?_cons]
  cases (T.rows.find? (fun r => decide (r.1 = k))).bind (fun r => rowFun r.2 c) <;> simp

theorem semVal_single {T : STable} {r : MKey × List (String × String)}
    (hTk : keysNodup T) (hm : r ∈ T.rows) (c : String) :
    semVal [T] r.1 c = rowFun r.2 c := by
  rw [semVal_cons, find?_of_mem_keys_nodup hm hTk]
  simp [semVal]

theorem semVal_none_of_no_key {ts : List STable} {k : MKey}
    (h : ∀ T ∈ ts, ∀ r ∈ T.rows, r.1 ≠ k) (c : String) :
    semVal ts k c = none := by
  unfold semVal
  rw [List.findSome?_eq_none_iff]
  intro T hT
  have : T.rows.find? (fun r => decide (r.1 = k)) = none := by
    rw [List.find?_eq_none]
    intro r hr
    simpa using h T hT r hr
  rw [this]
  rfl

/-- The invariant carried along the outer-join fold: the accumulated frame
`R` represents exactly the row content of the already-merged tables. -/
structure Represents (R : STable) (ts : List STable) : Prop where
  keys_iff : ∀ k, (∃ r ∈ R.rows, r.1 = k) ↔ ∃ T ∈ ts, ∃ r ∈ T.rows, r.1 = k
  keys_nodup : (R.rows.map Prod.fst).Nodup
  val_eq : ∀ r ∈ R.rows, ∀ c, rowFun r.2 c = semVal ts r.1 c
  cols_eq : R.cols = ts.flatMap STable.cols
  fields_in : ∀ r ∈ R.rows, ∀ p ∈ r.2, p.1 ∈ R.cols

theorem represents_single {T : STable} (hTk : keysNodup T)
    (hTf : fieldsInCols T) : Represents T [T] where
  keys_iff k := by simp
  keys_nodup := hTk
  val_eq r hr c := (semVal_single hTk hr c).symm
  cols_eq := by simp
  fields_in := hTf

theorem semVal_append (ts1 ts2 : List STable) (k : MKey) (c : String) :
    semVal (ts1 ++ ts2) k c = (semVal ts1 k c).or (semVal ts2 k c) := by
  unfold semVal
  rw [List.findSome?_append]

theorem flatMap_key_map_fst {Trows : List (MKey × List (String × String))}
    (hTk : (Trows.map Prod.fst).Nodup) :
    ∀ l : List (MKey × List (String × String)),
      ((l.flatMap (fun a =>
        match Trows.filter (fun b => decide (b.1 = a.1)) with
        | [] => [(a.1, a.2)]
        | ms => ms.map (fun b => (a.1, a.2 ++ b.2)))).map Prod.fst) =
      l.map Prod.fst := by
  intro l
  induction l with
  | nil => rfl
  | cons a l ih =>
    rw [List.flatMap_cons, List.map_append, ih, List.map_cons]
    rcases filter_key_of_nodup hTk a.1 with hnil | ⟨b, -, -, hfil⟩
    · rw [hnil]
      rfl
    · rw [hfil]
      rfl

theorem joinRows_map_fst {R T : STable} (hTk : keysNodup T) :
    (joinRows R T).map Prod.fst =
      R.rows.map Prod.fst ++
        (T.rows.filter
          (fun b => R.rows.all (fun a => !decide (a.1 = b.1)))).map Prod.fst := by
  rw [joinRows, List.map_append]
  congr 1
  exact flatMap_key_map_fst hTk R.rows

theorem represents_step {R T : STable} {pre : List STable}
    (hR : Represents R pre) (hTk : keysNodup T) (hTf : fieldsInCols T)
    (hdis : colDisjoint R T) :
    Represents (outerJoin R T) (pre ++ [T]) := by
  rw [outerJoin_of_disjoint R T hdis]
  refine ⟨?_, ?_, ?_, ?_, ?_⟩
  · -- keys: the join holds a key iff one of the merged tables does
    intro k
    constructor
    · rintro ⟨r, hr, hrk⟩
      rcases (mem_joinRows hTk r).1 hr with ⟨a, ha, -, rfl⟩ |
        ⟨a, ha, b, hb, -, rfl⟩ | ⟨b, hb, -, rfl⟩
      · obtain ⟨S, hS, hrow⟩ := (hR.keys_iff k).1 ⟨a, ha, hrk⟩
        exact ⟨S, List.mem_append_left _ hS, hrow⟩
      · obtain ⟨S, hS, hrow⟩ := (hR.keys_iff k).1 ⟨a, ha, hrk⟩
        exact ⟨S, List.mem_append_left _ hS, hrow⟩
      · exact ⟨T, List.mem_append_right _ (by simp), b, hb, hrk⟩
    · rintro ⟨S, hS, r, hr, hrk⟩
      rcases List.mem_append.1 hS with hSpre | hST
      · obtain ⟨a, ha, hak⟩ := (hR.keys_iff k).2 ⟨S, hSpre, r, hr, hrk⟩
        rcases filter_key_of_nodup hTk a.1 with hnil | ⟨b, hb, hbk, -⟩
        · refine ⟨(a.1, a.2), (mem_joinRows hTk _).2 (Or.inl ⟨a, ha, ?_, rfl⟩), hak⟩
          intro b hbT
          have := List.filter_eq_nil_iff.1 hnil b hbT
          simpa using this
        · exact ⟨(a.1, a.2 ++ b.2),
            (mem_joinRows hTk _).2 (Or.inr (Or.inl ⟨a, ha, b, hb, hbk, rfl⟩)), hak⟩
      · have hST' : S = T := by simpa using hST
        subst hST'
        by_cases hex : ∃ a ∈ R.rows, a.1 = k
        · obtain ⟨a, ha, hak⟩ := hex
          refine ⟨(a.1, a.2 ++ r.2),
            (mem_joinRows hTk _).2 (Or.inr (Or.inl ⟨a, ha, r, hr, ?_, rfl⟩)), hak⟩
          rw [hrk, hak]
        · refine ⟨(r.1, r.2), (mem_joinRows hTk _).2 (Or.inr (Or.inr ⟨r, hr, ?_, rfl⟩)),
            hrk⟩
          intro a ha
          intro hak
          exact hex ⟨a, ha, by rw [hak, hrk]⟩
  · -- key uniqueness
    show ((joinRows R T).map Prod.fst).Nodup
    rw [joinRows_map_fst hTk]
    rw [List.nodup_append]
    refine ⟨hR.keys_nodup, ?_, ?_⟩
    · exact ((List.filter_sublist _).map Prod.fst).nodup hTk
    · intro k hk1 hk2
      obtain ⟨a, ha, hak⟩ := List.mem_map.1 hk1
      obtain ⟨b, hbmem, hbk⟩ := List.mem_map.1 hk2
      rw [List.mem_filter] at hbmem
      obtain ⟨hbT, hall⟩ := hbmem
      have := List.all_eq_true.1 hall a ha
      simp only [Bool.not_eq_eq_eq_not, Bool.not_true, decide_eq_false_iff_not] at this
      exact this (by rw [hak, hbk])
  · -- values: every join cell agrees with the semantic value
    intro r hr c
    rcases (mem_joinRows hTk r).1 hr with ⟨a, ha, hnone, rfl⟩ |
      ⟨a, ha, b, hb, hbk, rfl⟩ | ⟨b, hb, hnone, rfl⟩
    · show rowFun a.2 c = semVal (pre ++ [T]) a.1 c
      rw [semVal_append]
      have hT0 : semVal [T] a.1 c = none := by
        refine semVal_none_of_no_key ?_ c
        intro S hS rr hrr
        have hST : S = T := by simpa using hS
        subst hST
        exact hnone rr hrr
      rw [hT0, Option.or_none]
      exact hR.val_eq a ha c
    · show rowFun (a.2 ++ b.2) c = semVal (pre ++ [T]) a.1 c
      rw [rowFun_append, semVal_append, hR.val_eq a ha c, ← hbk,
        semVal_single hTk hb c]
    · show rowFun b.2 c = semVal (pre ++ [T]) b.1 c
      rw [semVal_append]
      have hpre : semVal pre b.1 c = none := by
        refine semVal_none_of_no_key ?_ c
        intro S hS rr hrr hrk
        have : ∃ a ∈ R.rows, a.1 = b.1 := (hR.keys_iff b.1).2 ⟨S, hS, rr, hrr, hrk⟩
        obtain ⟨a, ha, hak⟩ := this
        exact hnone a ha hak
      rw [hpre, Option.none_or, semVal_single hTk hb c]
  · -- columns accumulate left to right
    show R.cols ++ T.cols = (pre ++ [T]).flatMap STable.cols
    rw [hR.cols_eq]
    simp
  · -- cells stay within the accumulated columns
    intro r hr p hp
    show p.1 ∈ R.cols ++ T.cols
    rcases (mem_joinRows hTk r).1 hr with ⟨a, ha, -, rfl⟩ |
      ⟨a, ha, b, hb, -, rfl⟩ | ⟨b, hb, -, rfl⟩
    · exact List.mem_append_left _ (hR.fields_in a ha p hp)
    · rcases List.mem_append.1 hp with hpa | hpb
      · exact List.mem_append_left _ (hR.fields_in a ha p hpa)
      · exact List.mem_append_right _ (hTf b hb p hpb)
    · exact List.mem_append_right _ (hTf b hb p hp)

theorem colDisjoint_symm {A B : STable} (h : colDisjoint A B) : colDisjoint B A :=
  fun c hcB hcA => h c hcA hcB

theorem foldl_represents :
    ∀ (ds : List STable) (acc : STable) (pre : List STable),
      Represents acc pre → (pre ++ ds).Pairwise colDisjoint →
      (∀ S ∈ ds, keysNodup S) → (∀ S ∈ ds, fieldsInCols S) →
      Represents (ds.foldl outerJoin acc) (pre ++ ds) := by
  intro ds
  induction ds with
  | nil =>
    intro acc pre h _ _ _
    simpa using h
  | cons t ds ih =>
    intro acc pre hacc hdis hk hf
    have hdisRT : colDisjoint acc t := by
      intro c hc hcT
      rw [hacc.cols_eq] at hc
      obtain ⟨S, hS, hcS⟩ := List.mem_flatMap.1 hc
      exact (List.pairwise_append.1 hdis).2.2 S hS t (by simp) c hcS hcT
    have hstep := represents_step hacc (hk t (by simp)) (hf t (by simp)) hdisRT
    have hres := ih (outerJoin acc t) (pre ++ [t]) hstep
      (by simpa using hdis)
      (fun S hS => hk S (by simp [hS]))
      (fun S hS => hf S (by simp [hS]))
    simpa using hres

theorem semVal_eq_some_iff :
    ∀ {ts : List STable}, ts.Pairwise colDisjoint →
      (∀ T ∈ ts, keysNodup T) → (∀ T ∈ ts, fieldsInCols T) →
      ∀ {k : MKey} {c v : String},
        (semVal ts k c = some v ↔
          ∃ T ∈ ts, ∃ r ∈ T.rows, r.1 = k ∧ rowFun r.2 c = some v) := by
  intro ts
  induction ts with
  | nil =>
    intro _ _ _ k c v
    simp [semVal]
  | cons T0 rest ih =>
    intro hdis hk hf k c v
    rw [semVal_cons]
    rcases h0 : (T0.rows.find? (fun r => decide (r.1 = k))).bind
        (fun r => rowFun r.2 c) with _ | ⟨w⟩
    · -- head contributes nothing
      rw [h0, Option.none_or]
      rw [ih hdis.of_cons (fun S hS => hk S (by simp [hS]))
        (fun S hS => hf S (by simp [hS]))]
      constructor
      · rintro ⟨S, hS, r, hr, hrk, hrv⟩
        exact ⟨S, by simp [hS], r, hr, hrk, hrv⟩
      · rintro ⟨S, hS, r, hr, hrk, hrv⟩
        rcases List.mem_cons.1 hS with rfl | hSrest
        · exfalso
          have hfind : S.rows.find? (fun r => decide (r.1 = k)) = some r := by
            have := find?_of_mem_keys_nodup hr (hk S (by simp))
            rw [hrk] at this
            exact this
          rw [hfind] at h0
          have h0' : rowFun r.2 c = none := h0
          rw [h0'] at hrv
          cases hrv
        · exact ⟨S, hSrest, r, hr, hrk, hrv⟩
    · -- head supplies a value; disjointness makes it the only source
      rw [h0, Option.or_some]
      obtain ⟨r0, hfind0, hval0⟩ := Option.bind_eq_some.1 h0
      have hr0mem := List.mem_of_find?_eq_some hfind0
      have hr0k : r0.1 = k := by simpa using List.find?_some hfind0
      constructor
      · intro hv
        have hwv : w = v := Option.some.inj hv
        subst hwv
        exact ⟨T0, by simp, r0, hr0mem, hr0k, hval0⟩
      · rintro ⟨S, hS, r, hr, hrk, hrv⟩
        rcases List.mem_cons.1 hS with rfl | hSrest
        · have hreq : r = r0 := by
            have h1 := find?_of_mem_keys_nodup hr (hk S (by simp))
            rw [hrk] at h1
            rw [h1] at hfind0
            exact Option.some.inj hfind0
          subst hreq
          rw [hval0] at hrv
          exact hrv
        · exfalso
          have hc0 : c ∈ T0.cols := by
            have hmem := rowFun_some_mem hval0
            exact hf T0 (by simp) r0 hr0mem (c, w) hmem
          have hcS : c ∈ S.cols := by
            have hmem := rowFun_some_mem hrv
            exact hf S (by simp [hSrest]) r hr (c, v) hmem
          have hdisj := (List.pairwise_cons.1 hdis).1 S hSrest
          exact hdisj c hc0 hcS

theorem semVal_filter (ts : List STable) (k : MKey) (c : String) :
    semVal (ts.filter (fun d => !d.rows.isEmpty)) k c = semVal ts k c := by
  induction ts with
  | nil => rfl
  | cons T rest ih =>
    by_cases hT : T.rows.isEmpty
    · have hnil : T.rows = [] := List.isEmpty_iff.1 hT
      rw [List.filter_cons, if_neg (by simp [hT]), ih, semVal_cons, hnil]
      simp
    · rw [List.filter_cons, if_pos (by simp [hT]), semVal_cons, semVal_cons, ih]

theorem semVal_perm {ts ts' : List STable} (hp : ts.Perm ts')
    (hdis : ts.Pairwise colDisjoint) (hk : ∀ T ∈ ts, keysNodup T)
    (hf : ∀ T ∈ ts, fieldsInCols T) (k : MKey) (c : String) :
    semVal ts k c = semVal ts' k c := by
  have hdis' : ts'.Pairwise colDisjoint :=
    (hp.pairwise_iff (fun h => colDisjoint_symm h)).1 hdis
  have hk' : ∀ T ∈ ts', keysNodup T := fun T hT => hk T (hp.mem_iff.2 hT)
  have hf' : ∀ T ∈ ts', fieldsInCols T := fun T hT => hf T (hp.mem_iff.2 hT)
  rcases hv : semVal ts k c with _ | ⟨v⟩
  · rcases hv' : semVal ts' k c with _ | ⟨v⟩
    · rfl
    · exfalso
      obtain ⟨T, hT, r, hr, hrk, hrv⟩ := (semVal_eq_some_iff hdis' hk' hf').1 hv'
      have := (semVal_eq_some_iff hdis hk hf).2 ⟨T, hp.mem_iff.2 hT, r, hr, hrk, hrv⟩
      rw [hv] at this
      cases this
  · obtain ⟨T, hT, r, hr, hrk, hrv⟩ := (semVal_eq_some_iff hdis hk hf).1 hv
    exact ((semVal_eq_some_iff hdis' hk' hf').2
      ⟨T, hp.mem_iff.1 hT, r, hr, hrk, hrv⟩).symm

theorem hasRow_mergeTables {ts : List STable}
    (hdis : ts.Pairwise colDisjoint) (hk : ∀ T ∈ ts, keysNodup T)
    (hf : ∀ T ∈ ts, fieldsInCols T) (k : MKey) (f : String → Option String) :
    HasRow (mergeTables ts) k f ↔
      ((∃ T ∈ ts, ∃ r ∈ T.rows, r.1 = k) ∧ f = fun c => semVal ts k c) := by
  rcases hF : ts.filter (fun d => !d.rows.isEmpty) with _ | ⟨d, ds⟩
  · rw [show mergeTables ts = none by rw [mergeTables, hF]]
    constructor
    · rintro ⟨r, hr, -⟩
      cases hr
    · rintro ⟨⟨T, hT, r, hr, -⟩, -⟩
      have hTmem : T ∈ ts.filter (fun d => !d.rows.isEmpty) := by
        rw [List.mem_filter]
        refine ⟨hT, ?_⟩
        have hne : T.rows ≠ [] := fun h => by rw [h] at hr; cases hr
        simp [List.isEmpty_iff, hne]
      rw [hF] at hTmem
      cases hTmem
  · have hmt : mergeTables ts = some (ds.foldl outerJoin d) := by
      rw [mergeTables, hF]
    have hdmem : d ∈ ts := by
      have : d ∈ ts.filter (fun d => !d.rows.isEmpty) := by rw [hF]; simp
      exact List.mem_of_mem_filter this
    have hsubl : ∀ S ∈ d :: ds, S ∈ ts := by
      intro S hS
      have : S ∈ ts.filter (fun d => !d.rows.isEmpty) := by rw [hF]; exact hS
      exact List.mem_of_mem_filter this
    have hdisF : (d :: ds).Pairwise colDisjoint := by
      have hsub := List.Pairwise.sublist
        (List.filter_sublist (p := fun d : STable => !d.rows.isEmpty) ts) hdis
      rw [hF] at hsub
      exact hsub
    have hbase : Represents d [d] :=
      represents_single (hk d hdmem) (hf d hdmem)
    have hRep : Represents (ds.foldl outerJoin d) (d :: ds) := by
      have := foldl_represents ds d [d] hbase (by simpa using hdisF)
        (fun S hS => hk S (hsubl S (by simp [hS])))
        (fun S hS => hf S (hsubl S (by simp [hS])))
      simpa using this
    rw [hmt]
    constructor
    · rintro ⟨r, hr, hrk, hrf⟩
      have hrmem : r ∈ (ds.foldl outerJoin d).rows := hr
      obtain ⟨T, hT, hrow⟩ := (hRep.keys_iff k).1 ⟨r, hrmem, hrk⟩
      refine ⟨⟨T, hsubl T hT, hrow⟩, ?_⟩
      rw [← hrf]
      funext c
      have := hRep.val_eq r hrmem c
      rw [hrk] at this
      rw [this, ← semVal_filter ts k c, hF]
    · rintro ⟨⟨T, hT, r, hr, hrk⟩, hfeq⟩
      have hTF : T ∈ d :: ds := by
        have : T ∈ ts.filter (fun d => !d.rows.isEmpty) := by
          rw [List.mem_filter]
          refine ⟨hT, ?_⟩
          have hne : T.rows ≠ [] := fun h => by rw [h] at hr; cases hr
          simp [List.isEmpty_iff, hne]
        rw [hF] at this
        exact this
      obtain ⟨r', hr', hrk'⟩ := (hRep.keys_iff k).2 ⟨T, hTF, r, hr, hrk⟩
      refine ⟨r', hr', hrk', ?_⟩
      rw [hfeq]
      funext c
      have := hRep.val_eq r' hr' c
      rw [hrk'] at this
      rw [this, ← semVal_filter ts k c, hF]

/-- C5 (amended): for a collection of category tables whose non-key column
sets are pairwise disjoint and which carry at most one row per merge key
(both hold for well-formed per-category tables that do not share a column
name), performing the outer-join chain in any order of the tables yields
the same row set (ignoring row order) as the implemented left-to-right
order.  (As `C5_counterexample` shows, the claim fails without the
disjointness proviso: tables sharing a non-key column — as the field-goal
and snap-count tables share `position` — get order-dependent `_x`/`_y`
suffix contents.) -/
theorem C5_merge_order_invariant (ts ts' : List STable) (hperm : ts.Perm ts')
    (hdis : ts.Pairwise colDisjoint) (hkeys : ∀ T ∈ ts, keysNodup T)
    (hflds : ∀ T ∈ ts, fieldsInCols T) :
    SameRows (mergeTables ts) (mergeTables ts') := by
  have hdis' : ts'.Pairwise colDisjoint :=
    (hperm.pairwise_iff (fun h => colDisjoint_symm h)).1 hdis
  have hkeys' : ∀ T ∈ ts', keysNodup T := fun T hT => hkeys T (hperm.mem_iff.2 hT)
  have hflds' : ∀ T ∈ ts', fieldsInCols T := fun T hT => hflds T (hperm.mem_iff.2 hT)
  intro k f
  rw [hasRow_mergeTables hdis hkeys hflds, hasRow_mergeTables hdis' hkeys' hflds']
  constructor
  · rintro ⟨⟨T, hT, hrow⟩, rfl⟩
    refine ⟨⟨T, hperm.mem_iff.1 hT, hrow⟩, ?_⟩
    funext c
    exact semVal_perm hperm hdis hkeys hflds k c
  · rintro ⟨⟨T, hT, hrow⟩, rfl⟩
    refine ⟨⟨T, hperm.mem_iff.2 hT, hrow⟩, ?_⟩
    funext c
    exact (semVal_perm hperm hdis hkeys hflds k c).symm

instance : DecidableRel colDisjoint := fun A B =>
  inferInstanceAs (Decidable (∀ c ∈ A.cols, c ∉ B.cols))

instance (T : STable) : Decidable (keysNodup T) :=
  inferInstanceAs (Decidable ((T.rows.map Prod.fst).Nodup))

instance (T : STable) : Decidable (fieldsInCols T) :=
  inferInstanceAs (Decidable (∀ r ∈ T.rows, ∀ p ∈ r.2, p.1 ∈ T.cols))

/-- An offense-style witness table for the amended C5. -/
def exTabOff : STable := ⟨["passing_yards"], [(exKey, [("passing_yards", "312")])]⟩

/-- A defense-style witness table for the amended C5 (distinct columns). -/
def exTabDef : STable := ⟨["defensive_sacks"], [(exKey, [("defensive_sacks", "2")])]⟩

/-- Witness for the amended C5: two concrete column-disjoint one-row
tables merge to the same row set in either order. -/
theorem C5_merge_order_invariant_witness :
    SameRows (mergeTables [exTabOff, exTabDef]) (mergeTables [exTabDef, exTabOff]) :=
  C5_merge_order_invariant [exTabOff, exTabDef] [exTabDef, exTabOff]
    (List.Perm.swap exTabDef exTabOff [])
    (by constructor
        · intro B hB
          rw [List.mem_singleton] at hB
          subst hB
          decide
        · exact List.pairwise_singleton _ _)
    (by intro T hT
        rcases List.mem_cons.1 hT with rfl | hT'
        · decide
        · rw [List.mem_singleton] at hT'
          subst hT'
          decide)
    (by intro T hT
        rcases List.mem_cons.1 hT with rfl | hT'
        · decide
        · rw [List.mem_singleton] at hT'
          subst hT'
          decide)

/-! ## C7 — Missing category tables

Source: `NFLDailyStatsCollector._fetch_commented_table`
(`src/theleague/handlers/nfl_handler.py` lines 671-681): looking up the
requested table id among the page's commented-out tables hits `IndexError`
when absent and returns `pd.DataFrame()`.  Downstream,
`_process_and_upload_data` (lines 324-435) filters empty frames before
the merge, but then unconditionally runs
`merged[...].drop(columns=["index"])` (line 395) — the `index` column
exists only when the field-goal table contributed (its double
`reset_index`) — and `merged.position_y.combine_first(merged.position_x)`
(line 398) — the `position_x`/`position_y` pair exists only when both
position-bearing tables (field goals, snap counts) reached the merge. -/

/-- The empty frame `pd.DataFrame()`. -/
def emptyFrame : STable := ⟨[], []⟩

/-- A commented-out HTML table on the fetched page. -/
structure RawTab where
  id : String
  content : STable

/-- `_fetch_commented_table`: find the table with the requested id; the
`IndexError` branch returns an explicitly empty frame.  `process`
abstracts the per-table processing of the found branch (`read_html`,
`_extract_ids`, `dropna`, renaming, context columns — modelled separately
by `extract_ids_dropna` and friends), which this claim does not
exercise. -/
def fetch_commented_table (process : RawTab → STable) (tables : List RawTab)
    (table_id : String) : STable :=
  match tables.filter (fun t => decide (t.id = table_id)) with
  | [] => emptyFrame
  | t :: _ => process t

def addCol (T : STable) (c v : String) : STable :=
  ⟨T.cols ++ [c], T.rows.map (fun r => (r.1, r.2 ++ [(c, v)]))⟩

def dropCol (T : STable) (c : String) : STable :=
  ⟨T.cols.filter (fun x => !decide (x = c)),
   T.rows.map (fun r => (r.1, r.2.filter (fun p => !decide (p.1 = c))))⟩

/-- The left join re-attaching `source_url` on the identity+date part of
the key (lines 363-371). -/
def attachSourceUrls (merged : STable) (urls : List (MKey × String)) : STable :=
  ⟨merged.cols ++ ["source_url"],
   merged.rows.flatMap (fun r =>
     match urls.filter (fun u => decide (u.1.player_id = r.1.player_id ∧
         u.1.player = r.1.player ∧ u.1.team = r.1.team ∧ u.1.date = r.1.date)) with
     | [] => [r]
     | ms => ms.map (fun u => (r.1, r.2 ++ [("source_url", u.2)])))⟩

/-- `merged["position"] = merged.position_y.combine_first(merged.position_x)`
followed by dropping the suffixed pair (lines 398-399). -/
def condensePosition (T : STable) : STable :=
  ⟨(T.cols.filter (fun c => !decide (c = "position_x" ∨ c = "position_y"))) ++
      ["position"],
   T.rows.map (fun r =>
     (r.1,
      (r.2.filter (fun p => !decide (p.1 = "position_x" ∨ p.1 = "position_y"))) ++
        (match (rowFun r.2 "position_y").or (rowFun r.2 "position_x") with
         | some v => [("position", v)]
         | none => [])))⟩

/-- `_process_and_upload_data` from the merge through the `position`
condensing, with the pandas failure modes explicit: dropping the absent
`index` column raises `KeyError`, and attribute access on an absent
`position_y`/`position_x` column raises `AttributeError`.  `.ok none` is
the benign "No data to merge" return; the identifier reordering (which
touches only key columns and the just-added `season`) and the duplicate
collapse (`resolveDuplicates`, modelled above) cannot raise and are
omitted past the failure point. -/
def process_and_merge (dfs_to_merge : List STable) (current_date : PyDate) :
    Except String (Option STable) :=
  match dfs_to_merge.filter (fun d => !d.rows.isEmpty) with
  | [] => .ok none
  | d :: ds =>
    let withUrl := (d :: ds).filter (fun t => decide ("source_url" ∈ t.cols))
    let source_urls := withUrl.flatMap (fun t =>
      t.rows.filterMap (fun r => (rowFun r.2 "source_url").map (fun v => (r.1, v))))
    let dfs_wo := (d :: ds).map (fun t => dropCol t "source_url")
    let merged :=
      match dfs_wo with
      | [] => emptyFrame
      | x :: xs => xs.foldl outerJoin x
    let merged2 := if withUrl.isEmpty then merged
      else attachSourceUrls merged source_urls
    let merged3 := addCol merged2 "season" (toString (assignSeason current_date))
    let merged4 : STable := ⟨merged3.cols, merged3.rows.eraseDups⟩
    if "index" ∈ merged4.cols then
      let merged5 := dropCol merged4 "index"
      if "position_y" ∈ merged5.cols then
        if "position_x" ∈ merged5.cols then .ok (some (condensePosition merged5))
        else .error "AttributeError: position_x"
      else .error "AttributeError: position_y"
    else .error "KeyError: [index] not found in axis"

/-- A non-empty offensive table as it reaches the merge: canonical stat
columns plus `source_url`, no `position` and no `index` column. -/
def exTabOffFull : STable :=
  ⟨["passing_yards", "rushing_yards", "source_url"],
   [(exKey, [("passing_yards", "312"),
     ("source_url", "https://www.pro-football-reference.com/boxscores/202309100mia.htm")])]⟩

/-- C7: a missing category table does come back as an explicitly empty
frame, but the downstream merge step does NOT complete without error on
the remaining tables: with only the offensive table non-empty (every
other category empty), `.drop(columns=["index"])` raises `KeyError`
because the `index` column exists only when the field-goal table
contributed rows (and `merged.position_y` would likewise raise).  The
claim's error-free completion is the documented intent (spec §4.4, §7,
§8) and the code contradicts it. -/
theorem C7_empty_table_bug :
    (∀ (process : RawTab → STable) (tables : List RawTab) (tid : String),
      tables.filter (fun t => decide (t.id = tid)) = [] →
      fetch_commented_table process tables tid = emptyFrame) ∧
    process_and_merge [exTabOffFull, emptyFrame, emptyFrame, emptyFrame,
        emptyFrame, emptyFrame, emptyFrame, emptyFrame, emptyFrame, emptyFrame]
        ⟨2023, 9, 10⟩ =
      .error "KeyError: [index] not found in axis" := by
  constructor
  · intro process tables tid h
    unfold fetch_commented_table
    rw [h]
  · rfl

/-- Witness for C7: the empty-frame branch applied at a concrete missing
table id. -/
theorem C7_empty_table_bug_witness :
    fetch_commented_table (fun t => t.content) [] "kicking" = emptyFrame :=
  C7_empty_table_bug.1 (fun t => t.content) [] "kicking" rfl
